import Mathlib

/-!
Verification development for the procedural cave generator
(`src/generator.js`).  The GLSL fragment shader and the JS parameter
plumbing are embedded shallowly over `ℚ`: vectors become `Vec3`
records, the seeded hash / value-noise / fBm chain becomes pure
functions, the ray-march loop with its hard 512-iteration bound and
its `hitT` sentinel becomes a fuel-indexed recursion, and the JS
`URLSearchParams` parameter update becomes a record update keyed by
strings.  The density along a ray is abstracted as a function
`ℚ → ℚ`, instantiated by `rayDensity` below exactly as the shader
evaluates `field(ro + rd*t)`.
-/

set_option maxRecDepth 8000

/-- A 3-component vector with exact rational components, standing for
GLSL `vec3`. -/
structure Vec3 where
  x : ℚ
  y : ℚ
  z : ℚ
  deriving DecidableEq

instance : Add Vec3 := ⟨fun a b => ⟨a.x + b.x, a.y + b.y, a.z + b.z⟩⟩

instance : Sub Vec3 := ⟨fun a b => ⟨a.x - b.x, a.y - b.y, a.z - b.z⟩⟩

instance : Mul Vec3 := ⟨fun a b => ⟨a.x * b.x, a.y * b.y, a.z * b.z⟩⟩

instance : SMul ℚ Vec3 := ⟨fun c v => ⟨c * v.x, c * v.y, c * v.z⟩⟩

/-- GLSL scalar broadcast into a `vec3` (used by `p += <scalar>` and
`p.yzx + 19.19` in the shader). -/
def Vec3.const (c : ℚ) : Vec3 := ⟨c, c, c⟩

/-- GLSL `dot`. -/
def Vec3.dot (a b : Vec3) : ℚ := a.x * b.x + a.y * b.y + a.z * b.z

/-- GLSL swizzle `p.yzx`. -/
def Vec3.yzx (a : Vec3) : Vec3 := ⟨a.y, a.z, a.x⟩

@[simp] lemma Vec3.add_x (a b : Vec3) : (a + b).x = a.x + b.x := rfl
@[simp] lemma Vec3.add_y (a b : Vec3) : (a + b).y = a.y + b.y := rfl
@[simp] lemma Vec3.add_z (a b : Vec3) : (a + b).z = a.z + b.z := rfl
@[simp] lemma Vec3.sub_x (a b : Vec3) : (a - b).x = a.x - b.x := rfl
@[simp] lemma Vec3.sub_y (a b : Vec3) : (a - b).y = a.y - b.y := rfl
@[simp] lemma Vec3.sub_z (a b : Vec3) : (a - b).z = a.z - b.z := rfl
@[simp] lemma Vec3.mul_x (a b : Vec3) : (a * b).x = a.x * b.x := rfl
@[simp] lemma Vec3.mul_y (a b : Vec3) : (a * b).y = a.y * b.y := rfl
@[simp] lemma Vec3.mul_z (a b : Vec3) : (a * b).z = a.z * b.z := rfl
@[simp] lemma Vec3.smul_x (c : ℚ) (v : Vec3) : (c • v).x = c * v.x := rfl
@[simp] lemma Vec3.smul_y (c : ℚ) (v : Vec3) : (c • v).y = c * v.y := rfl
@[simp] lemma Vec3.smul_z (c : ℚ) (v : Vec3) : (c • v).z = c * v.z := rfl
@[simp] lemma Vec3.const_x (c : ℚ) : (Vec3.const c).x = c := rfl
@[simp] lemma Vec3.const_y (c : ℚ) : (Vec3.const c).y = c := rfl
@[simp] lemma Vec3.const_z (c : ℚ) : (Vec3.const c).z = c := rfl

/-- GLSL `fract`: `x - floor(x)`. -/
def fract (x : ℚ) : ℚ := x - ⌊x⌋

/-- Componentwise `fract` on a `vec3`. -/
def fractV (v : Vec3) : Vec3 := ⟨fract v.x, fract v.y, fract v.z⟩

/-- Componentwise `floor` on a `vec3`. -/
def floorV (v : Vec3) : Vec3 := ⟨(⌊v.x⌋ : ℚ), (⌊v.y⌋ : ℚ), (⌊v.z⌋ : ℚ)⟩

@[simp] lemma fractV_x (v : Vec3) : (fractV v).x = fract v.x := rfl
@[simp] lemma fractV_y (v : Vec3) : (fractV v).y = fract v.y := rfl
@[simp] lemma fractV_z (v : Vec3) : (fractV v).z = fract v.z := rfl

/-- GLSL `mix(x, y, a) = x*(1-a) + y*a`. -/
def mix (x y a : ℚ) : ℚ := x * (1 - a) + y * a

/-- The seeded hash of the shader:
`p = fract(p * 0.3183099 + uSeedVec); p += dot(p, p.yzx + 19.19);
return fract((p.x + p.y) * p.z);` (source lines 57-62). -/
def hash31 (sv : Vec3) (p0 : Vec3) : ℚ :=
  let p1 := fractV ((0.3183099 : ℚ) • p0 + sv)
  let p2 := p1 + Vec3.const (Vec3.dot p1 (p1.yzx + Vec3.const (19.19 : ℚ)))
  fract ((p2.x + p2.y) * p2.z)

/-- Trilinear value noise of the shader (source lines 65-83): hash the
eight lattice corners around `p` and blend with the per-axis weight
`u = f*f*(3 - 2*f)`. -/
def valueNoise (sv : Vec3) (p : Vec3) : ℚ :=
  let i := floorV p
  let f := fractV p
  let n000 := hash31 sv (i + ⟨0, 0, 0⟩)
  let n100 := hash31 sv (i + ⟨1, 0, 0⟩)
  let n010 := hash31 sv (i + ⟨0, 1, 0⟩)
  let n110 := hash31 sv (i + ⟨1, 1, 0⟩)
  let n001 := hash31 sv (i + ⟨0, 0, 1⟩)
  let n101 := hash31 sv (i + ⟨1, 0, 1⟩)
  let n011 := hash31 sv (i + ⟨0, 1, 1⟩)
  let n111 := hash31 sv (i + ⟨1, 1, 1⟩)
  let u := f * f * (Vec3.const 3 - (2 : ℚ) • f)
  let nx00 := mix n000 n100 u.x
  let nx10 := mix n010 n110 u.x
  let nx01 := mix n001 n101 u.x
  let nx11 := mix n011 n111 u.x
  let nxy0 := mix nx00 nx10 u.y
  let nxy1 := mix nx01 nx11 u.y
  mix nxy0 nxy1 u.z

/-- The fBm accumulation loop of the shader (source lines 86-97):
`for (o = 0; o < 8; ++o) { if (o >= uOctaves) break;
sum += amp * valueNoise(p*f); f *= lacunarity; amp *= gain; }`.
The fuel argument is the constant loop bound 8; `o` is the loop
counter compared against the requested octave count. -/
def fbmAux (noise : Vec3 → ℚ) (lac gain : ℚ) (oct : ℤ) (p : Vec3) :
    Nat → ℤ → ℚ → ℚ → ℚ → ℚ
  | 0, _, _, _, sum => sum
  | n + 1, o, f, amp, sum =>
    if oct ≤ o then sum
    else fbmAux noise lac gain oct p n (o + 1) (f * lac) (amp * gain)
      (sum + amp * noise (f • p))

/-- `fbm` of the shader: starting amplitude `0.5`, starting frequency
`uFreq`, at most 8 octaves. -/
def fbm (sv : Vec3) (freq lac gain : ℚ) (oct : ℤ) (p : Vec3) : ℚ :=
  fbmAux (valueNoise sv) lac gain oct p 8 0 freq (1/2) 0

/-- The signed density field of the shader (source lines 101-105):
`fbm(p + vec3(0,0,0.15*uTime)) - uThreshold`. -/
def field (sv : Vec3) (freq lac gain : ℚ) (oct : ℤ) (thr time : ℚ)
    (p : Vec3) : ℚ :=
  fbm sv freq lac gain oct (p + ⟨0, 0, (0.15 : ℚ) * time⟩) - thr

/-- Outcome of marching one ray: either a refined hit distance or a
miss carrying the distance traveled (used by the fog term). -/
inductive MarchResult where
  | Hit (dist : ℚ)
  | Miss (traveled : ℚ)
  deriving DecidableEq

/-- The 4-iteration bisection refine of the shader (source lines
159-164), generic in the density `d` along the ray.  `val` is the
density at the right end of the original bracket, kept fixed across
iterations exactly as in the source:
`m = 0.5*(a+b); mv = d(m); if (mv*val < 0) a = m else b = m`. -/
def bisect (d : ℚ → ℚ) (val : ℚ) : Nat → ℚ × ℚ → ℚ × ℚ
  | 0, ab => ab
  | n + 1, (a, b) =>
    let m := (a + b) / 2
    let mv := d m
    if mv * val < 0 then bisect d val n (m, b) else bisect d val n (a, m)

/-- The ray-march loop of the shader (source lines 150-171), generic in
the density `d` along the ray.  The fuel is the hard constant loop
bound (`for (int i = 0; i < 512; ++i)`); `i` is the loop counter
checked against `uMaxSteps`, `t` the current distance, `prevVal` the
density at the previous sample.  Returns the pair
`(hitT, t)` where `hitT = -1` is the miss sentinel of the source. -/
def marchLoop (d : ℚ → ℚ) (maxSteps : ℤ) (maxDist step : ℚ) :
    Nat → ℤ → ℚ → ℚ → ℚ × ℚ
  | 0, _, t, _ => (-1, t)
  | fuel + 1, i, t, prevVal =>
    if maxSteps ≤ i then (-1, t)
    else
      let val := d t
      if val * prevVal < 0 then
        let ab := bisect d val 4 (t - step, t)
        ((ab.1 + ab.2) / 2, t)
      else
        let t2 := t + step
        if maxDist < t2 then (-1, t2)
        else marchLoop d maxSteps maxDist step fuel (i + 1) t2 val

/-- The complete marcher: run the loop from `t = 0` with
`prevVal = d 0` (the shader's `prevVal = field(ro)`), then classify
through the sentinel test `hitT > 0.0` of source line 174. -/
def march (d : ℚ → ℚ) (maxSteps : ℤ) (maxDist step : ℚ) : MarchResult :=
  let r := marchLoop d maxSteps maxDist step 512 0 0 (d 0)
  if 0 < r.1 then MarchResult.Hit r.1 else MarchResult.Miss r.2

/-- Density along the ray `ro + t • rd`, the function the shader's
march loop actually samples. -/
def rayDensity (sv : Vec3) (freq lac gain : ℚ) (oct : ℤ)
    (thr time : ℚ) (ro rd : Vec3) (t : ℚ) : ℚ :=
  field sv freq lac gain oct thr time (ro + t • rd)

/-- The marcher applied to the concrete shader density, tying
`march` back to source lines 150-171. -/
def marchRay (sv : Vec3) (freq lac gain : ℚ) (oct : ℤ)
    (thr time : ℚ) (ro rd : Vec3) (maxSteps : ℤ)
    (maxDist step : ℚ) : MarchResult :=
  march (rayDensity sv freq lac gain oct thr time ro rd) maxSteps maxDist step

/-- JS `ToInt32` (the `|0` coercion applied to `params.seed` on source
line 231). -/
def toInt32 (n : ℤ) : ℤ := (n + 2 ^ 31) % 2 ^ 32 - 2 ^ 31

/-- The seed-to-offset-vector derivation of source lines 229-236.  JS
`%` is the truncated remainder (sign of the dividend), which is
`Int.tmod`. -/
def uSeedVec (seed : ℤ) : Vec3 :=
  let s := toInt32 seed
  ⟨((Int.tmod (s * 16807) 2147483647 : ℤ) : ℚ) / 2147483647,
   ((Int.tmod (s * 48271) 2147483647 : ℤ) : ℚ) / 2147483647,
   ((Int.tmod (s * 69621) 2147483647 : ℤ) : ℚ) / 2147483647⟩

/-- The seed derivation without the 32-bit wrap, with JS truncated
remainder; used to state what `uSeedVec` does on in-range seeds. -/
def seedVecTmod (s : ℤ) : Vec3 :=
  ⟨((Int.tmod (s * 16807) 2147483647 : ℤ) : ℚ) / 2147483647,
   ((Int.tmod (s * 48271) 2147483647 : ℤ) : ℚ) / 2147483647,
   ((Int.tmod (s * 69621) 2147483647 : ℤ) : ℚ) / 2147483647⟩

/-- The seed derivation as the specification words it, with the
mathematical (Euclidean, non-negative) remainder, whose results are
normalized to `[0,1)`.  Kept separate from `uSeedVec` so the two can
be compared. -/
def seedVecSpec (s : ℤ) : Vec3 :=
  ⟨((s * 16807 % 2147483647 : ℤ) : ℚ) / 2147483647,
   ((s * 48271 % 2147483647 : ℤ) : ℚ) / 2147483647,
   ((s * 69621 % 2147483647 : ℤ) : ℚ) / 2147483647⟩

/-- The mutable parameter object of source lines 5-16 (all JS numbers,
hence exact rationals here). -/
structure Params where
  seed : ℚ
  threshold : ℚ
  freq : ℚ
  octaves : ℚ
  gain : ℚ
  lacunarity : ℚ
  camDist : ℚ
  maxSteps : ℚ
  maxDist : ℚ
  stepSize : ℚ
  deriving DecidableEq

/-- The starting parameters of source lines 5-16. -/
def params0 : Params :=
  ⟨0, 0.3, 0.3, 3, 0.8, 2, 3, 1024, 200, 0.01⟩

/-- The URL-parameter update of source lines 19-21:
`if (k in params) params[k] = Number(v)` — any recognized key is
overwritten with the supplied number, with no validation. -/
def updateParam (p : Params) (k : String) (v : ℚ) : Params :=
  if k = ("seed" : String) then { p with seed := v }
  else if k = ("threshold" : String) then { p with threshold := v }
  else if k = ("freq" : String) then { p with freq := v }
  else if k = ("octaves" : String) then { p with octaves := v }
  else if k = ("gain" : String) then { p with gain := v }
  else if k = ("lacunarity" : String) then { p with lacunarity := v }
  else if k = ("camDist" : String) then { p with camDist := v }
  else if k = ("maxSteps" : String) then { p with maxSteps := v }
  else if k = ("maxDist" : String) then { p with maxDist := v }
  else if k = ("stepSize" : String) then { p with stepSize := v }
  else p

/-- The fog density of the miss branch, source line 204:
`float fogFactor = 1.0 / uMaxDist;`. -/
def fogFactor (maxDist : ℚ) : ℚ := 1 / maxDist

/-- The componentwise Reinhard-style tonemap of source line 215:
`col = col / (1.0 + col)`. -/
def tonemap (c : Vec3) : Vec3 :=
  ⟨c.x / (1 + c.x), c.y / (1 + c.y), c.z / (1 + c.z)⟩

/-- Apply a scalar function to each component (the shape of the final
`pow(col, vec3(0.95))` of source line 216, with the real-exponent
power abstracted as `g`). -/
def mapVec (g : ℚ → ℚ) (v : Vec3) : Vec3 := ⟨g v.x, g v.y, g v.z⟩

/-- The tail of `main` (source lines 173-216): pick the hit-branch or
miss-branch color by the sentinel test `hitT > 0.0`, then apply the
tonemap and the gamma-like curve `g` to the result — one code path,
shared by both branches. -/
def fragColor (g : ℚ → ℚ) (hitT : ℚ) (hitCol missCol : Vec3) : Vec3 :=
  mapVec g (tonemap (if 0 < hitT then hitCol else missCol))

/-- A pure step density used as concrete test input: `-1` below the
cut `c`, `+1` from `c` on. -/
def stepDensity (c : ℚ) (x : ℚ) : ℚ := if x < c then -1 else 1

/-- Concrete density whose isosurface lies at `1/3`: used to exercise
the marcher on explicit inputs. -/
def dW (x : ℚ) : ℚ := stepDensity (1/3) x

/-- Concrete density that is exactly zero at `1/2`, negative below and
positive above: its first bisection midpoint density vanishes. -/
def dCE (x : ℚ) : ℚ := if x < 1/2 then -1 else if x ≤ 1/2 then 0 else 1

/-- Concrete density crossing at `513`, past the shader's hard
512-iteration bound but inside a 1024-step budget. -/
def dC2 (x : ℚ) : ℚ := stepDensity 513 x

/-- Partial geometric sum `1 + g + g^2 + ... + g^(n-1)`, written in the
same nesting order as the fBm loop accumulates its amplitudes. -/
def geomSum (g : ℚ) : Nat → ℚ
  | 0 => 0
  | n + 1 => 1 + g * geomSum g n

/-! ## Lemmas about the bisection refine -/

lemma bisect_nest (d : ℚ → ℚ) (val : ℚ) :
    ∀ (n : Nat) (a b : ℚ), a < b →
      a ≤ (bisect d val n (a, b)).1 ∧
      (bisect d val n (a, b)).1 < (bisect d val n (a, b)).2 ∧
      (bisect d val n (a, b)).2 ≤ b ∧
      (bisect d val n (a, b)).2 - (bisect d val n (a, b)).1 = (b - a) / 2 ^ n := by
  intro n
  induction n with
  | zero =>
    intro a b hab
    simp only [bisect, pow_zero]
    exact ⟨le_refl a, hab, le_refl b, by ring⟩
  | succ n ih =>
    intro a b hab
    have hm1 : a < (a + b) / 2 := by linarith
    have hm2 : (a + b) / 2 < b := by linarith
    by_cases hc : d ((a + b) / 2) * val < 0
    · have h := ih ((a + b) / 2) b hm2
      simp only [bisect, if_pos hc]
      refine ⟨le_trans (le_of_lt hm1) h.1, h.2.1, h.2.2.1, ?_⟩
      rw [h.2.2.2, pow_succ]
      ring
    · have h := ih a ((a + b) / 2) hm1
      simp only [bisect, if_neg hc]
      refine ⟨h.1, h.2.1, le_trans h.2.2.1 (le_of_lt hm2), ?_⟩
      rw [h.2.2.2, pow_succ]
      ring

lemma bisect_sign (d : ℚ → ℚ) (val : ℚ) :
    ∀ (n : Nat) (a b : ℚ), d a * val < 0 → 0 ≤ d b * val →
      d (bisect d val n (a, b)).1 * val < 0 ∧
      0 ≤ d (bisect d val n (a, b)).2 * val := by
  intro n
  induction n with
  | zero =>
    intro a b h1 h2
    simpa only [bisect] using ⟨h1, h2⟩
  | succ n ih =>
    intro a b h1 h2
    by_cases hc : d ((a + b) / 2) * val < 0
    · simp only [bisect, if_pos hc]
      exact ih ((a + b) / 2) b hc h2
    · simp only [bisect, if_neg hc]
      exact ih a ((a + b) / 2) h1 (not_lt.mp hc)

lemma bisect_sign_strict (d : ℚ → ℚ) (val lo hi : ℚ)
    (hz : ∀ x : ℚ, lo ≤ x → x ≤ hi → d x ≠ 0) (hval : val ≠ 0) :
    ∀ (n : Nat) (a b : ℚ), lo ≤ a → b ≤ hi → a < b →
      d a * val < 0 → 0 < d b * val →
      d (bisect d val n (a, b)).1 * val < 0 ∧
      0 < d (bisect d val n (a, b)).2 * val := by
  intro n
  induction n with
  | zero =>
    intro a b _ _ _ h1 h2
    simpa only [bisect] using ⟨h1, h2⟩
  | succ n ih =>
    intro a b hlo hhi hab h1 h2
    have hm1 : a < (a + b) / 2 := by linarith
    have hm2 : (a + b) / 2 < b := by linarith
    by_cases hc : d ((a + b) / 2) * val < 0
    · simp only [bisect, if_pos hc]
      exact ih ((a + b) / 2) b (by linarith) hhi hm2 hc h2
    · simp only [bisect, if_neg hc]
      have hne : d ((a + b) / 2) * val ≠ 0 :=
        mul_ne_zero (hz _ (by linarith) (by linarith)) hval
      exact ih a ((a + b) / 2) hlo (by linarith) hm1 h1
        (lt_of_le_of_ne (not_lt.mp hc) (Ne.symm hne))

lemma sign_prod_le (x y v : ℚ) (hx : x * v < 0) (hy : 0 ≤ y * v) :
    x * y ≤ 0 := by
  rcases mul_neg_iff.mp hx with ⟨hxp, hvn⟩ | ⟨hxn, hvp⟩
  · have hyn : y ≤ 0 := by
      by_contra hpos
      push_neg at hpos
      exact absurd hy (not_le.mpr (mul_neg_of_pos_of_neg hpos hvn))
    exact mul_nonpos_iff.mpr (Or.inl ⟨le_of_lt hxp, hyn⟩)
  · have hyp : 0 ≤ y := by
      by_contra hneg
      push_neg at hneg
      exact absurd hy (not_le.mpr (mul_neg_of_neg_of_pos hneg hvp))
    exact mul_nonpos_iff.mpr (Or.inr ⟨le_of_lt hxn, hyp⟩)

lemma sign_prod_lt (x y v : ℚ) (hx : x * v < 0) (hy : 0 < y * v) :
    x * y < 0 := by
  rcases mul_neg_iff.mp hx with ⟨hxp, hvn⟩ | ⟨hxn, hvp⟩
  · rcases mul_pos_iff.mp hy with ⟨_, hvp2⟩ | ⟨hyn, _⟩
    · linarith
    · exact mul_neg_of_pos_of_neg hxp hyn
  · rcases mul_pos_iff.mp hy with ⟨hyp, _⟩ | ⟨_, hvn2⟩
    · exact mul_neg_of_neg_of_pos hxn hyp
    · linarith

/-- Claim C1 (amended): entering the refine phase with `a < b` and
strictly opposite endpoint densities, every bisection iteration keeps
the bracket nested inside the original one, keeps the left endpoint
density strictly opposite in sign to the entering right-endpoint
density and the right endpoint density weakly agreeing with it, so the
product of the endpoint densities stays `≤ 0` (it can vanish when a
midpoint density is exactly zero, so "strictly opposite signs" holds
in general only in this weak form); when no point of the bracket has
density exactly zero the endpoint densities do keep strictly opposite
signs at every iteration; and the emitted hit distance after the 4
iterations lies strictly inside the original bracket. -/
theorem C1_amended (d : ℚ → ℚ) (a b : ℚ) (hab : a < b)
    (hsign : d a * d b < 0) :
    (∀ n : Nat,
      a ≤ (bisect d (d b) n (a, b)).1 ∧
      (bisect d (d b) n (a, b)).1 < (bisect d (d b) n (a, b)).2 ∧
      (bisect d (d b) n (a, b)).2 ≤ b) ∧
    (∀ n : Nat,
      d (bisect d (d b) n (a, b)).1 * d b < 0 ∧
      0 ≤ d (bisect d (d b) n (a, b)).2 * d b ∧
      d (bisect d (d b) n (a, b)).1 * d (bisect d (d b) n (a, b)).2 ≤ 0) ∧
    (a < ((bisect d (d b) 4 (a, b)).1 + (bisect d (d b) 4 (a, b)).2) / 2 ∧
      ((bisect d (d b) 4 (a, b)).1 + (bisect d (d b) 4 (a, b)).2) / 2 < b) ∧
    ((∀ x : ℚ, a ≤ x → x ≤ b → d x ≠ 0) →
      ∀ n : Nat,
        d (bisect d (d b) n (a, b)).1 * d (bisect d (d b) n (a, b)).2 < 0) := by
  have hvb : 0 ≤ d b * d b := mul_self_nonneg _
  have hbne : d b ≠ 0 := by
    intro h0
    rw [h0, mul_zero] at hsign
    exact absurd hsign (lt_irrefl 0)
  refine ⟨?_, ?_, ?_, ?_⟩
  · intro n
    have h := bisect_nest d (d b) n a b hab
    exact ⟨h.1, h.2.1, h.2.2.1⟩
  · intro n
    have h := bisect_sign d (d b) n a b hsign hvb
    exact ⟨h.1, h.2, sign_prod_le _ _ _ h.1 h.2⟩
  · have h := bisect_nest d (d b) 4 a b hab
    constructor
    · linarith [h.1, h.2.1]
    · linarith [h.2.1, h.2.2.1]
  · intro hz n
    have hvb2 : 0 < d b * d b := by
      rcases lt_or_gt_of_ne hbne with h | h
      · exact mul_pos_of_neg_of_neg h h
      · exact mul_pos h h
    have h := bisect_sign_strict d (d b) a b hz hbne n a b
      (le_refl a) (le_refl b) hab hsign hvb2
    exact sign_prod_lt _ _ _ h.1 h.2

/-- Claim C1 counterexample: for the density `dCE` (zero exactly at the
first midpoint `1/2`) the refine phase is entered with bracket `(0,1)`
and strictly opposite endpoint densities, but already after one
bisection iteration the endpoint densities do not have opposite signs
(their product is `0`, the right endpoint density vanishes); the
bracket `(0,1)` is actually reached by a full march. -/
theorem C1_counterexample :
    dCE 0 * dCE 1 < 0 ∧
    ¬ (dCE (bisect dCE (dCE 1) 1 (0, 1)).1 *
        dCE (bisect dCE (dCE 1) 1 (0, 1)).2 < 0) ∧
    march dCE 1024 10 1 = MarchResult.Hit (15/32) := by
  refine ⟨by decide!, by decide!, by decide!⟩

/-- Witness for `C1_amended` at the concrete density `dW`, bracket
`(0, 1)`. -/
theorem C1_witness :
    ((0 : ℚ) < 1 ∧ dW 0 * dW 1 < 0) ∧
    ((∀ n : Nat,
      (0 : ℚ) ≤ (bisect dW (dW 1) n (0, 1)).1 ∧
      (bisect dW (dW 1) n (0, 1)).1 < (bisect dW (dW 1) n (0, 1)).2 ∧
      (bisect dW (dW 1) n (0, 1)).2 ≤ 1) ∧
    (∀ n : Nat,
      dW (bisect dW (dW 1) n (0, 1)).1 * dW 1 < 0 ∧
      0 ≤ dW (bisect dW (dW 1) n (0, 1)).2 * dW 1 ∧
      dW (bisect dW (dW 1) n (0, 1)).1 * dW (bisect dW (dW 1) n (0, 1)).2 ≤ 0) ∧
    ((0 : ℚ) < ((bisect dW (dW 1) 4 (0, 1)).1 + (bisect dW (dW 1) 4 (0, 1)).2) / 2 ∧
      ((bisect dW (dW 1) 4 (0, 1)).1 + (bisect dW (dW 1) 4 (0, 1)).2) / 2 < 1) ∧
    ((∀ x : ℚ, (0 : ℚ) ≤ x → x ≤ 1 → dW x ≠ 0) →
      ∀ n : Nat,
        dW (bisect dW (dW 1) n (0, 1)).1 * dW (bisect dW (dW 1) n (0, 1)).2 < 0)) :=
  ⟨⟨by norm_num, by decide!⟩, C1_amended dW 0 1 (by norm_num) (by decide!)⟩

/-! ## Lemmas about the march loop -/

lemma marchLoop_budget_min (d : ℚ → ℚ) (ms : ℤ) (M s : ℚ) :
    ∀ (fuel : Nat) (i : ℤ) (t p : ℚ), i + fuel ≤ 512 →
      marchLoop d (min ms 512) M s fuel i t p =
        marchLoop d ms M s fuel i t p := by
  intro fuel
  induction fuel with
  | zero =>
    intro i t p _
    simp [marchLoop]
  | succ fuel ih =>
    intro i t p hle
    have hiff : (min ms 512 ≤ i) ↔ (ms ≤ i) := by omega
    by_cases h1 : ms ≤ i
    · simp only [marchLoop, if_pos h1, if_pos (hiff.mpr h1)]
    · have h1m : ¬ min ms 512 ≤ i := fun hc => h1 (hiff.mp hc)
      by_cases h2 : d t * p < 0
      · simp only [marchLoop, if_neg h1, if_neg h1m, if_pos h2]
      · by_cases h3 : M < t + s
        · simp only [marchLoop, if_neg h1, if_neg h1m, if_neg h2, if_pos h3]
        · simp only [marchLoop, if_neg h1, if_neg h1m, if_neg h2, if_neg h3]
          exact ih (i + 1) (t + s) (d t) (by omega)

lemma marchLoop_mono (d : ℚ → ℚ) (ms : ℤ) (M M2 s : ℚ) (hM : M ≤ M2) :
    ∀ (fuel : Nat) (i : ℤ) (t p : ℚ),
      0 < (marchLoop d ms M s fuel i t p).1 →
      marchLoop d ms M2 s fuel i t p = marchLoop d ms M s fuel i t p := by
  intro fuel
  induction fuel with
  | zero =>
    intro i t p h
    norm_num [marchLoop] at h
  | succ fuel ih =>
    intro i t p h
    by_cases h1 : ms ≤ i
    · norm_num [marchLoop, h1] at h
    · by_cases h2 : d t * p < 0
      · simp only [marchLoop, if_neg h1, if_pos h2]
      · by_cases h3 : M < t + s
        · norm_num [marchLoop, h1, h2, h3] at h
        · have h3b : ¬ M2 < t + s := by
            push_neg at h3 ⊢
            linarith
          simp only [marchLoop, if_neg h1, if_neg h2, if_neg h3] at h
          simp only [marchLoop, if_neg h1, if_neg h2, if_neg h3, if_neg h3b]
          exact ih (i + 1) (t + s) (d t) h

lemma marchLoop_hit_bounds (d : ℚ → ℚ) (ms : ℤ) (M s : ℚ) (hs : 0 < s) :
    ∀ (fuel : Nat) (i : ℤ) (t p : ℚ),
      ((t = 0 ∧ p = d 0) ∨ (s ≤ t ∧ p = d (t - s))) →
      (marchLoop d ms M s fuel i t p).1 = -1 ∨
      (∃ tc : ℚ, s ≤ tc ∧ d tc * d (tc - s) < 0 ∧
        tc - s + s / 32 ≤ (marchLoop d ms M s fuel i t p).1 ∧
        (marchLoop d ms M s fuel i t p).1 ≤ tc - s / 32) := by
  intro fuel
  induction fuel with
  | zero =>
    intro i t p _
    left
    simp [marchLoop]
  | succ fuel ih =>
    intro i t p hinv
    by_cases h1 : ms ≤ i
    · left
      simp [marchLoop, h1]
    · by_cases h2 : d t * p < 0
      · simp only [marchLoop, if_neg h1, if_pos h2]
        right
        rcases hinv with ⟨ht, hp⟩ | ⟨ht, hp⟩
        · exfalso
          rw [ht, hp] at h2
          exact absurd h2 (not_lt.mpr (mul_self_nonneg (d 0)))
        · have hcross : d t * d (t - s) < 0 := by
            rw [hp] at h2
            exact h2
          have hb := bisect_nest d (d t) 4 (t - s) t (by linarith)
          have hw : (t - (t - s)) / 2 ^ 4 = s / 16 := by
            norm_num
          rw [hw] at hb
          exact ⟨t, ht, hcross, by linarith [hb.1, hb.2.2.2], by linarith [hb.2.2.1, hb.2.2.2]⟩
      · by_cases h3 : M < t + s
        · left
          simp [marchLoop, h1, h2, h3]
        · simp only [marchLoop, if_neg h1, if_neg h2, if_neg h3]
          have hts : t + s - s = t := by ring
          refine ih (i + 1) (t + s) (d t) (Or.inr ⟨?_, by rw [hts]⟩)
          rcases hinv with ⟨ht, _⟩ | ⟨ht, _⟩
          · rw [ht]
            linarith
          · linarith

/-- Claim C2 (amended): the shader loop is hard-bounded at 512
iterations (`for (int i = 0; i < 512; ++i)`) on top of the
`i >= uMaxSteps` break, so the effective step budget is
`min(maxSteps, 512)`: marching with budget `maxSteps` is identical to
marching with budget `min(maxSteps, 512)`; in particular with the
default `maxSteps = 1024` the marcher behaves exactly as with a budget
of 512, so it can take at most 512 steps, not 1024. -/
theorem C2_amended (d : ℚ → ℚ) (ms : ℤ) (M s : ℚ) :
    march d ms M s = march d (min ms 512) M s ∧
    march d 1024 M s = march d 512 M s := by
  constructor
  · simp only [march]
    rw [marchLoop_budget_min d ms M s 512 0 0 (d 0) (by omega)]
  · have h := marchLoop_budget_min d 1024 M s 512 0 0 (d 0) (by omega)
    have hmin : (min (1024 : ℤ) 512) = 512 := by norm_num
    rw [hmin] at h
    simp only [march]
    rw [h]

/-- Claim C2 counterexample: the density `dC2` changes sign between
`t = 512` and `t = 513`; with the default budget `maxSteps = 1024`,
`maxDistance = 2000` and `stepSize = 1` the marcher nevertheless
reports a `Miss` after traveling only `t = 512`, although `t` never
exceeded `maxDistance` and only 512 of the claimed 1024 steps were
taken — the hard 512-iteration loop bound, absent from the claim,
exhausted first. -/
theorem C2_counterexample :
    march dC2 1024 2000 1 = MarchResult.Miss 512 ∧
    dC2 512 * dC2 513 < 0 ∧
    (513 : ℚ) ≤ 2000 ∧ (513 : ℤ) ≤ 1024 := by
  refine ⟨by decide!, by decide!, by norm_num, by norm_num⟩

/-- Claim C3: enlarging the distance budget `maxDistance` can never
turn a `Hit` into a `Miss`, and the hit distance found is unchanged. -/
theorem C3_maxDist_monotone (d : ℚ → ℚ) (ms : ℤ) (M M2 s : ℚ)
    (hM : M ≤ M2) (h : ℚ)
    (hhit : march d ms M s = MarchResult.Hit h) :
    march d ms M2 s = MarchResult.Hit h := by
  simp only [march] at hhit ⊢
  by_cases hp : 0 < (marchLoop d ms M s 512 0 0 (d 0)).1
  · rw [marchLoop_mono d ms M M2 s hM 512 0 0 (d 0) hp]
    rw [if_pos hp] at hhit ⊢
    exact hhit
  · rw [if_neg hp] at hhit
    exact MarchResult.noConfusion hhit

/-- Witness for `C3_maxDist_monotone`: the density `dW` is hit at
distance `11/32` with budget `maxDist = 10`, and still at `11/32` with
the enlarged budget `maxDist = 20`. -/
theorem C3_witness :
    ((10 : ℚ) ≤ 20 ∧ march dW 1024 10 1 = MarchResult.Hit (11/32)) ∧
    march dW 1024 20 1 = MarchResult.Hit (11/32) :=
  ⟨⟨by norm_num, by decide!⟩,
    C3_maxDist_monotone dW 1024 10 20 1 (by norm_num) (11/32) (by decide!)⟩

/-- Claim C10: with a positive step size, every emitted `Hit` carries a
distance of at least `stepSize/32` that lies strictly inside a genuine
sign-change bracket `(tc - stepSize, tc)` with `tc ≥ stepSize` (the
crossing can never be detected at the very first iteration, where the
origin density is compared against itself), and the loop either ends
in the miss sentinel `-1` or in a positive refined distance that the
`hitT > 0` test correctly classifies as a `Hit` — the sentinel never
swallows an actual hit. -/
theorem C10_hit_positive (d : ℚ → ℚ) (ms : ℤ) (M s : ℚ) (hs : 0 < s) :
    (∀ h : ℚ, march d ms M s = MarchResult.Hit h →
      s / 32 ≤ h ∧
      ∃ tc : ℚ, s ≤ tc ∧ d tc * d (tc - s) < 0 ∧ tc - s < h ∧ h < tc) ∧
    (∀ r : ℚ × ℚ, marchLoop d ms M s 512 0 0 (d 0) = r →
      r.1 = -1 ∨ (0 < r.1 ∧ march d ms M s = MarchResult.Hit r.1)) := by
  have key := marchLoop_hit_bounds d ms M s hs 512 0 0 (d 0) (Or.inl ⟨rfl, rfl⟩)
  constructor
  · intro h hhit
    simp only [march] at hhit
    by_cases hp : 0 < (marchLoop d ms M s 512 0 0 (d 0)).1
    · rw [if_pos hp] at hhit
      have hr : (marchLoop d ms M s 512 0 0 (d 0)).1 = h :=
        by injection hhit
      rcases key with hm1 | ⟨tc, htc, hcross, hlo, hhi⟩
      · rw [hm1] at hp
        norm_num at hp
      · rw [hr] at hlo hhi
        exact ⟨by linarith, tc, htc, hcross, by linarith, by linarith⟩
    · rw [if_neg hp] at hhit
      exact MarchResult.noConfusion hhit
  · intro r hr
    rcases key with hm1 | ⟨tc, htc, hcross, hlo, hhi⟩
    · left
      rw [hr] at hm1
      exact hm1
    · right
      have hp : 0 < (marchLoop d ms M s 512 0 0 (d 0)).1 := by linarith
      constructor
      · rw [← hr]
        exact hp
      · simp only [march]
        rw [if_pos hp, hr]

/-- Witness for `C10_hit_positive` at the concrete density `dW` with
step size 1. -/
theorem C10_witness :
    ((0 : ℚ) < 1) ∧
    ((∀ h : ℚ, march dW 1024 10 1 = MarchResult.Hit h →
      (1 : ℚ) / 32 ≤ h ∧
      ∃ tc : ℚ, (1 : ℚ) ≤ tc ∧ dW tc * dW (tc - 1) < 0 ∧ tc - 1 < h ∧ h < tc) ∧
    (∀ r : ℚ × ℚ, marchLoop dW 1024 10 1 512 0 0 (dW 0) = r →
      r.1 = -1 ∨ (0 < r.1 ∧ march dW 1024 10 1 = MarchResult.Hit r.1))) :=
  ⟨by norm_num, C10_hit_positive dW 1024 10 1 (by norm_num)⟩

/-! ## Lemmas about the noise field -/

lemma fract_bounds (x : ℚ) : 0 ≤ fract x ∧ fract x < 1 := by
  unfold fract
  constructor
  · linarith [Int.floor_le x]
  · linarith [Int.lt_floor_add_one x]

lemma hash31_bounds (sv p : Vec3) : 0 ≤ hash31 sv p ∧ hash31 sv p < 1 := by
  simp only [hash31]
  exact fract_bounds _

lemma sstep_bounds (t : ℚ) (h0 : 0 ≤ t) (h1 : t ≤ 1) :
    0 ≤ t * t * (3 - 2 * t) ∧ t * t * (3 - 2 * t) ≤ 1 := by
  constructor
  · exact mul_nonneg (mul_nonneg h0 h0) (by linarith)
  · have key : (1 - t) * (1 - t) * (1 + 2 * t) = 1 - t * t * (3 - 2 * t) := by
      ring
    have hnn : 0 ≤ (1 - t) * (1 - t) * (1 + 2 * t) :=
      mul_nonneg (mul_nonneg (by linarith) (by linarith)) (by linarith)
    linarith [key ▸ hnn]

lemma mix_bounds {a b u : ℚ} (ha : 0 ≤ a ∧ a < 1) (hb : 0 ≤ b ∧ b < 1)
    (hu0 : 0 ≤ u) (hu1 : u ≤ 1) : 0 ≤ mix a b u ∧ mix a b u < 1 := by
  unfold mix
  constructor
  · exact add_nonneg (mul_nonneg ha.1 (by linarith)) (mul_nonneg hb.1 hu0)
  · rcases lt_or_eq_of_le hu1 with h | h
    · have h1 : a * (1 - u) < 1 * (1 - u) :=
        mul_lt_mul_of_pos_right ha.2 (by linarith)
      have h2 : b * u ≤ 1 * u := mul_le_mul_of_nonneg_right (le_of_lt hb.2) hu0
      linarith
    · subst h
      have := hb.2
      linarith [hb.2]

lemma valueNoise_bounds (sv p : Vec3) :
    0 ≤ valueNoise sv p ∧ valueNoise sv p < 1 := by
  have hfx := fract_bounds p.x
  have hfy := fract_bounds p.y
  have hfz := fract_bounds p.z
  have hux := sstep_bounds (fract p.x) hfx.1 (le_of_lt hfx.2)
  have huy := sstep_bounds (fract p.y) hfy.1 (le_of_lt hfy.2)
  have huz := sstep_bounds (fract p.z) hfz.1 (le_of_lt hfz.2)
  simp only [valueNoise, Vec3.mul_x, Vec3.mul_y, Vec3.mul_z, Vec3.sub_x,
    Vec3.sub_y, Vec3.sub_z, Vec3.const_x, Vec3.const_y, Vec3.const_z,
    Vec3.smul_x, Vec3.smul_y, Vec3.smul_z, fractV_x, fractV_y, fractV_z]
  exact mix_bounds
    (mix_bounds
      (mix_bounds (hash31_bounds _ _) (hash31_bounds _ _) hux.1 hux.2)
      (mix_bounds (hash31_bounds _ _) (hash31_bounds _ _) hux.1 hux.2)
      huy.1 huy.2)
    (mix_bounds
      (mix_bounds (hash31_bounds _ _) (hash31_bounds _ _) hux.1 hux.2)
      (mix_bounds (hash31_bounds _ _) (hash31_bounds _ _) hux.1 hux.2)
      huy.1 huy.2)
    huz.1 huz.2

lemma geomSum_nonneg (g : ℚ) (hg : 0 ≤ g) : ∀ n : Nat, 0 ≤ geomSum g n := by
  intro n
  induction n with
  | zero => simp [geomSum]
  | succ n ih =>
    simp only [geomSum]
    have := mul_nonneg hg ih
    linarith

lemma fbmAux_bounds (noise : Vec3 → ℚ) (lac gain : ℚ) (oct : ℤ) (p : Vec3)
    (hg : 0 ≤ gain) (hn : ∀ q : Vec3, 0 ≤ noise q ∧ noise q < 1) :
    ∀ (n : Nat) (o : ℤ) (f amp sum : ℚ), 0 ≤ amp →
      sum ≤ fbmAux noise lac gain oct p n o f amp sum ∧
      fbmAux noise lac gain oct p n o f amp sum ≤
        sum + amp * geomSum gain n := by
  intro n
  induction n with
  | zero =>
    intro o f amp sum _
    simp [fbmAux, geomSum]
  | succ n ih =>
    intro o f amp sum hamp
    have hgs := geomSum_nonneg gain hg (n + 1)
    by_cases hoct : oct ≤ o
    · simp only [fbmAux, if_pos hoct]
      exact ⟨le_refl _, by linarith [mul_nonneg hamp hgs]⟩
    · simp only [fbmAux, if_neg hoct]
      have hnoise := hn (f • p)
      have h1 := ih (o + 1) (f * lac) (amp * gain)
        (sum + amp * noise (f • p)) (mul_nonneg hamp hg)
      constructor
      · have h0 : 0 ≤ amp * noise (f • p) := mul_nonneg hamp hnoise.1
        linarith [h1.1]
      · have hle : amp * noise (f • p) ≤ amp * 1 :=
          mul_le_mul_of_nonneg_left (le_of_lt hnoise.2) hamp
        have hgeom : sum + amp * geomSum gain (n + 1) =
            sum + amp + amp * gain * geomSum gain n := by
          simp only [geomSum]
          ring
        rw [hgeom]
        have h2 := h1.2
        linarith [h2]

lemma fbmAux_clamp (noise : Vec3 → ℚ) (lac gain : ℚ) (p : Vec3)
    (oct oct2 : ℤ) :
    ∀ (n : Nat) (o : ℤ) (f amp sum : ℚ),
      o + (n : ℤ) ≤ oct → o + (n : ℤ) ≤ oct2 →
      fbmAux noise lac gain oct p n o f amp sum =
        fbmAux noise lac gain oct2 p n o f amp sum := by
  intro n
  induction n with
  | zero =>
    intro o f amp sum _ _
    simp [fbmAux]
  | succ n ih =>
    intro o f amp sum h1 h2
    have ho1 : ¬ oct ≤ o := by
      push_cast at h1
      omega
    have ho2 : ¬ oct2 ≤ o := by
      push_cast at h2
      omega
    simp only [fbmAux, if_neg ho1, if_neg ho2]
    refine ih (o + 1) (f * lac) (amp * gain) (sum + amp * noise (f • p)) ?_ ?_
    · push_cast at h1 ⊢
      omega
    · push_cast at h2 ⊢
      omega

/-- Claim C4: the fBm loop accumulates at most 8 octaves regardless of
the requested octave count — any request of at least 8 octaves (in
particular 20) produces exactly the same fBm and field values as a
request of 8, everywhere, with no error. -/
theorem C4_octave_clamp (sv : Vec3) (freq lac gain thr time : ℚ)
    (p : Vec3) (oct : ℤ) (h8 : 8 ≤ oct) :
    fbm sv freq lac gain oct p = fbm sv freq lac gain 8 p ∧
    field sv freq lac gain oct thr time p =
      field sv freq lac gain 8 thr time p := by
  have hf : ∀ q : Vec3, fbm sv freq lac gain oct q = fbm sv freq lac gain 8 q := by
    intro q
    unfold fbm
    exact fbmAux_clamp (valueNoise sv) lac gain q oct 8 8 0 freq (1/2) 0
      (by omega) (by omega)
  refine ⟨hf p, ?_⟩
  unfold field
  rw [hf]

/-- Witness for `C4_octave_clamp` with requested octave count 20 at a
concrete seed, parameters and point. -/
theorem C4_witness :
    ((8 : ℤ) ≤ 20) ∧
    (fbm (uSeedVec 0) (3/10) 2 (8/10) 20 ⟨1/2, 1/3, 1/4⟩ =
      fbm (uSeedVec 0) (3/10) 2 (8/10) 8 ⟨1/2, 1/3, 1/4⟩ ∧
    field (uSeedVec 0) (3/10) 2 (8/10) 20 (3/10) 1 ⟨1/2, 1/3, 1/4⟩ =
      field (uSeedVec 0) (3/10) 2 (8/10) 8 (3/10) 1 ⟨1/2, 1/3, 1/4⟩) :=
  ⟨by norm_num,
    C4_octave_clamp (uSeedVec 0) (3/10) 2 (8/10) (3/10) 1 ⟨1/2, 1/3, 1/4⟩ 20
      (by norm_num)⟩

/-- Claim C9: the hash always lands in `[0,1)`; the trilinear value
noise, a `mix`-blend of eight such hashes with smoothstep weights in
`[0,1]`, also lands in `[0,1)`; and for amplitude falloff
`gain ∈ (0,1)` the fBm value is non-negative and bounded by
`0.5 * (1 + gain + ... + gain^7)`. -/
theorem C9_field_ranges (sv p : Vec3) (freq lac gain : ℚ) (oct : ℤ)
    (hg0 : 0 < gain) (hg1 : gain < 1) :
    (0 ≤ hash31 sv p ∧ hash31 sv p < 1) ∧
    (0 ≤ valueNoise sv p ∧ valueNoise sv p < 1) ∧
    (0 ≤ fbm sv freq lac gain oct p ∧
      fbm sv freq lac gain oct p ≤
        1/2 * (1 + gain + gain^2 + gain^3 + gain^4 + gain^5 + gain^6 + gain^7)) := by
  have h := fbmAux_bounds (valueNoise sv) lac gain oct p (le_of_lt hg0)
    (fun q => valueNoise_bounds sv q) 8 0 freq (1/2) 0 (by norm_num)
  refine ⟨hash31_bounds sv p, valueNoise_bounds sv p, ?_, ?_⟩
  · have h1 := h.1
    unfold fbm
    linarith [h1]
  · have hgeo : (0 : ℚ) + 1/2 * geomSum gain 8 =
        1/2 * (1 + gain + gain^2 + gain^3 + gain^4 + gain^5 + gain^6 + gain^7) := by
      simp only [geomSum]
      ring
    have h2 := h.2
    rw [hgeo] at h2
    unfold fbm
    linarith [h2]

/-- Witness for `C9_field_ranges` at a concrete seed, point and
parameter set with `gain = 1/2`. -/
theorem C9_witness :
    ((0 : ℚ) < 1/2 ∧ (1/2 : ℚ) < 1) ∧
    ((0 ≤ hash31 (uSeedVec 0) ⟨1/2, -(3/2), 5/7⟩ ∧
        hash31 (uSeedVec 0) ⟨1/2, -(3/2), 5/7⟩ < 1) ∧
     (0 ≤ valueNoise (uSeedVec 0) ⟨1/2, -(3/2), 5/7⟩ ∧
        valueNoise (uSeedVec 0) ⟨1/2, -(3/2), 5/7⟩ < 1) ∧
     (0 ≤ fbm (uSeedVec 0) (3/10) 2 (1/2) 3 ⟨1/2, -(3/2), 5/7⟩ ∧
        fbm (uSeedVec 0) (3/10) 2 (1/2) 3 ⟨1/2, -(3/2), 5/7⟩ ≤
          1/2 * (1 + 1/2 + (1/2)^2 + (1/2)^3 + (1/2)^4 + (1/2)^5 +
            (1/2)^6 + (1/2)^7))) :=
  ⟨⟨by norm_num, by norm_num⟩,
    C9_field_ranges (uSeedVec 0) ⟨1/2, -(3/2), 5/7⟩ (3/10) 2 (1/2) 3
      (by norm_num) (by norm_num)⟩

/-! ## The seed vector -/

lemma neg_lt_tmod (a : ℤ) {b : ℤ} (hb : 0 < b) : -b < Int.tmod a b := by
  rcases le_or_lt 0 a with ha | ha
  · linarith [Int.tmod_nonneg b ha]
  · rcases a with m | m
    · exact absurd ha (not_lt.mpr (Int.ofNat_nonneg m))
    · rcases b with n | n
      · rcases n with _ | n
        · have h0 : Int.ofNat 0 = 0 := rfl
          rw [h0] at hb
          exact absurd hb (lt_irrefl 0)
        · have heq : Int.tmod (Int.negSucc m) (Int.ofNat (n + 1)) =
              -(Int.ofNat ((m + 1) % (n + 1))) := rfl
          rw [heq]
          have hlt : (m + 1) % (n + 1) < n + 1 := Nat.mod_lt _ (Nat.succ_pos n)
          exact Int.neg_lt_neg (Int.ofNat_lt.mpr hlt)
      · exact absurd hb (not_lt.mpr (le_of_lt (Int.negSucc_lt_zero n)))

lemma toInt32_eq_self {s : ℤ} (h1 : -(2 ^ 31) ≤ s) (h2 : s < 2 ^ 31) :
    toInt32 s = s := by
  unfold toInt32
  omega

/-- Claim C5 (amended): for every 32-bit integer seed the derived
vector is `((s*16807) tmod 2147483647)/2147483647` (and similarly with
48271 and 69621), where `tmod` is the JS truncated remainder keeping
the sign of the dividend; the map is a pure function of the seed
(deterministic by construction); each component lies in `(-1, 1)`, and
the claimed normalization to `[0, 1)` holds exactly for the
non-negative seeds. -/
theorem C5_amended (s : ℤ) (h1 : -(2 ^ 31) ≤ s) (h2 : s < 2 ^ 31) :
    uSeedVec s = seedVecTmod s ∧
    (-1 < (uSeedVec s).x ∧ (uSeedVec s).x < 1 ∧
     -1 < (uSeedVec s).y ∧ (uSeedVec s).y < 1 ∧
     -1 < (uSeedVec s).z ∧ (uSeedVec s).z < 1) ∧
    (0 ≤ s →
      (0 ≤ (uSeedVec s).x ∧ (uSeedVec s).x < 1 ∧
       0 ≤ (uSeedVec s).y ∧ (uSeedVec s).y < 1 ∧
       0 ≤ (uSeedVec s).z ∧ (uSeedVec s).z < 1)) := by
  have ht := toInt32_eq_self h1 h2
  have hM : (0 : ℤ) < 2147483647 := by norm_num
  have comp : ∀ a : ℤ,
      -1 < ((Int.tmod a 2147483647 : ℤ) : ℚ) / 2147483647 ∧
      ((Int.tmod a 2147483647 : ℤ) : ℚ) / 2147483647 < 1 := by
    intro a
    have hlt : Int.tmod a 2147483647 < 2147483647 := Int.tmod_lt_of_pos a hM
    have hgt : -2147483647 < Int.tmod a 2147483647 := neg_lt_tmod a hM
    constructor
    · rw [lt_div_iff₀ (by norm_num : (0 : ℚ) < 2147483647)]
      have : (-2147483647 : ℚ) < ((Int.tmod a 2147483647 : ℤ) : ℚ) := by
        exact_mod_cast hgt
      linarith
    · rw [div_lt_one (by norm_num : (0 : ℚ) < 2147483647)]
      exact_mod_cast hlt
  have compn : ∀ a : ℤ, 0 ≤ a →
      0 ≤ ((Int.tmod a 2147483647 : ℤ) : ℚ) / 2147483647 := by
    intro a ha
    have hnn := Int.tmod_nonneg (2147483647 : ℤ) ha
    exact div_nonneg (by exact_mod_cast hnn) (by norm_num)
  refine ⟨?_, ?_, ?_⟩
  · simp only [uSeedVec, seedVecTmod, ht]
  · simp only [uSeedVec, ht]
    exact ⟨(comp _).1, (comp _).2, (comp _).1, (comp _).2,
      (comp _).1, (comp _).2⟩
  · intro hs
    simp only [uSeedVec, ht]
    exact ⟨compn _ (by positivity), (comp _).2, compn _ (by positivity),
      (comp _).2, compn _ (by positivity), (comp _).2⟩

/-- Claim C5 counterexample: for the 32-bit seed `-1` the derived
vector differs from the mathematically mod-normalized vector the claim
describes, and its first component is negative — outside the claimed
interval `[0, 1)` — because the JS `%` keeps the dividend's sign. -/
theorem C5_counterexample :
    uSeedVec (-1) ≠ seedVecSpec (-1) ∧ ¬ ((0 : ℚ) ≤ (uSeedVec (-1)).x) := by
  refine ⟨by decide!, by decide!⟩

/-- Witness for `C5_amended` at the concrete in-range seed 5. -/
theorem C5_witness :
    ((-(2 ^ 31) : ℤ) ≤ 5 ∧ (5 : ℤ) < 2 ^ 31) ∧
    (uSeedVec 5 = seedVecTmod 5 ∧
    (-1 < (uSeedVec 5).x ∧ (uSeedVec 5).x < 1 ∧
     -1 < (uSeedVec 5).y ∧ (uSeedVec 5).y < 1 ∧
     -1 < (uSeedVec 5).z ∧ (uSeedVec 5).z < 1) ∧
    ((0 : ℤ) ≤ 5 →
      (0 ≤ (uSeedVec 5).x ∧ (uSeedVec 5).x < 1 ∧
       0 ≤ (uSeedVec 5).y ∧ (uSeedVec 5).y < 1 ∧
       0 ≤ (uSeedVec 5).z ∧ (uSeedVec 5).z < 1))) :=
  ⟨⟨by norm_num, by norm_num⟩, C5_amended 5 (by norm_num) (by norm_num)⟩

/-- Claim C6: two distinct seeds in `[0, 10000)` derive distinct seed
vectors — on this range the first LCG-style transform is injective
because `s * 16807` never reaches the modulus. -/
theorem C6_seed_injective (s1 s2 : ℤ) (h1 : 0 ≤ s1) (h2 : s1 < 10000)
    (h3 : 0 ≤ s2) (h4 : s2 < 10000) (hne : s1 ≠ s2) :
    uSeedVec s1 ≠ uSeedVec s2 := by
  have key : ∀ s : ℤ, 0 ≤ s → s < 10000 →
      (uSeedVec s).x = ((s * 16807 : ℤ) : ℚ) / 2147483647 := by
    intro s hs0 hs1
    have ht : toInt32 s = s := toInt32_eq_self (by omega) (by omega)
    have hmod : Int.tmod (s * 16807) 2147483647 = s * 16807 :=
      Int.tmod_eq_of_lt (by omega) (by omega)
    simp only [uSeedVec, ht, hmod]
  intro heq
  have hx : (uSeedVec s1).x = (uSeedVec s2).x := by rw [heq]
  rw [key s1 h1 h2, key s2 h3 h4] at hx
  rw [div_eq_div_iff (by norm_num : (2147483647 : ℚ) ≠ 0)
    (by norm_num : (2147483647 : ℚ) ≠ 0)] at hx
  have hx2 : ((s1 * 16807 : ℤ) : ℚ) = ((s2 * 16807 : ℤ) : ℚ) :=
    mul_right_cancel₀ (by norm_num) hx
  have hx3 : s1 * 16807 = s2 * 16807 := by exact_mod_cast hx2
  exact hne (by omega)

/-- Witness for `C6_seed_injective` at the concrete seeds 0 and 1. -/
theorem C6_witness :
    ((0 : ℤ) ≤ 0 ∧ (0 : ℤ) < 10000 ∧ (0 : ℤ) ≤ 1 ∧ (1 : ℤ) < 10000 ∧
      (0 : ℤ) ≠ 1) ∧
    uSeedVec 0 ≠ uSeedVec 1 :=
  ⟨⟨by norm_num, by norm_num, by norm_num, by norm_num, by norm_num⟩,
    C6_seed_injective 0 1 (by norm_num) (by norm_num) (by norm_num)
      (by norm_num) (by norm_num)⟩

/-! ## Parameter snapshot and tonemap -/

/-- Claim C7 (amended): no snapshot validation exists — the URL
parameter update stores any supplied number for a recognized key, so a
non-positive `maxDist` is accepted into the snapshot (the previous
valid snapshot is not retained), and the per-pixel fog factor
`1/maxDist` computed from the updated snapshot is then negative
instead of a configuration error being reported. -/
theorem C7_amended (p : Params) (v : ℚ) (hv : v < 0) :
    updateParam p ("maxDist") v = { p with maxDist := v } ∧
    fogFactor ((updateParam p ("maxDist") v).maxDist) < 0 := by
  have hupd : updateParam p ("maxDist") v = { p with maxDist := v } := by
    rfl
  refine ⟨hupd, ?_⟩
  rw [hupd]
  show fogFactor v < 0
  unfold fogFactor
  exact div_neg_of_pos_of_neg one_pos hv

/-- Claim C7 counterexample: setting `maxDist=-5` through the URL
parameter path is not rejected at snapshot time: the invalid value is
stored (the last valid snapshot `params0` is not kept) and the fog
divisor evaluates to the garbage value `-1/5` during per-pixel
evaluation. -/
theorem C7_counterexample :
    (updateParam params0 ("maxDist") (-5)).maxDist = -5 ∧
    updateParam params0 ("maxDist") (-5) ≠ params0 ∧
    fogFactor (updateParam params0 ("maxDist") (-5)).maxDist = -(1/5) := by
  refine ⟨by decide!, by decide!, by decide!⟩

/-- Witness for `C7_amended` at the starting parameters and the
invalid value `-5`. -/
theorem C7_witness :
    ((-5 : ℚ) < 0) ∧
    (updateParam params0 ("maxDist") (-5) = { params0 with maxDist := -5 } ∧
      fogFactor ((updateParam params0 ("maxDist") (-5)).maxDist) < 0) :=
  ⟨by norm_num, C7_amended params0 (-5) (by norm_num)⟩

lemma tonemap_comp (x : ℚ) (hx : 0 ≤ x) :
    0 ≤ x / (1 + x) ∧ x / (1 + x) < 1 := by
  have h1 : (0 : ℚ) < 1 + x := by linarith
  constructor
  · exact div_nonneg hx (le_of_lt h1)
  · rw [div_lt_one h1]
    linarith

/-- Claim C8 (amended): for input colors with non-negative components
(which is what the claim's bound requires — arbitrary finite colors
with a negative component land outside `[0,1]`), the Reinhard tonemap
`c/(1+c)` maps every component into `[0, 1)`; and the final pipeline
applies the very same tonemap-then-gamma composition to the hit color
and to the miss color, selected only by the `hitT > 0` sentinel
test. -/
theorem C8_tonemap (c : Vec3) (hx : 0 ≤ c.x) (hy : 0 ≤ c.y)
    (hz : 0 ≤ c.z) (g : ℚ → ℚ) :
    (0 ≤ (tonemap c).x ∧ (tonemap c).x < 1 ∧
     0 ≤ (tonemap c).y ∧ (tonemap c).y < 1 ∧
     0 ≤ (tonemap c).z ∧ (tonemap c).z < 1) ∧
    (∀ (hitT : ℚ) (other : Vec3),
      fragColor g hitT c other =
        mapVec g (tonemap (if 0 < hitT then c else other))) := by
  constructor
  · have h1 := tonemap_comp c.x hx
    have h2 := tonemap_comp c.y hy
    have h3 := tonemap_comp c.z hz
    simp only [tonemap]
    exact ⟨h1.1, h1.2, h2.1, h2.2, h3.1, h3.2⟩
  · intro hitT other
    rfl

/-- Claim C8 counterexample: the tonemap is not bounded into `[0,1]`
for arbitrary finite input colors: the finite component `-1/2` maps to
`-1 < 0` and the finite component `-3` maps to `3/2 > 1`. -/
theorem C8_counterexample :
    ¬ ((0 : ℚ) ≤ (tonemap ⟨-(1/2), 0, 0⟩).x) ∧
    ¬ ((tonemap ⟨-3, 0, 0⟩).x ≤ 1) := by
  refine ⟨by decide!, by decide!⟩

/-- Witness for `C8_tonemap` at the concrete non-negative color
`(1, 2, 3)` with the gamma curve abstracted as the identity. -/
theorem C8_witness :
    ((0 : ℚ) ≤ (⟨1, 2, 3⟩ : Vec3).x ∧ (0 : ℚ) ≤ (⟨1, 2, 3⟩ : Vec3).y ∧
      (0 : ℚ) ≤ (⟨1, 2, 3⟩ : Vec3).z) ∧
    ((0 ≤ (tonemap ⟨1, 2, 3⟩).x ∧ (tonemap ⟨1, 2, 3⟩).x < 1 ∧
      0 ≤ (tonemap ⟨1, 2, 3⟩).y ∧ (tonemap ⟨1, 2, 3⟩).y < 1 ∧
      0 ≤ (tonemap ⟨1, 2, 3⟩).z ∧ (tonemap ⟨1, 2, 3⟩).z < 1) ∧
    (∀ (hitT : ℚ) (other : Vec3),
      fragColor id hitT ⟨1, 2, 3⟩ other =
        mapVec id (tonemap (if 0 < hitT then ⟨1, 2, 3⟩ else other)))) :=
  ⟨⟨by norm_num, by norm_num, by norm_num⟩,
    C8_tonemap ⟨1, 2, 3⟩ (by norm_num) (by norm_num) (by norm_num) id⟩
